import Mathlib

/-!
Shallow embedding of the ZoneAutomaton repository (TimedAutomaton.py,
ZoneAutomaton.py, TFA_ex1.py) for checking the natural-language
specification against the code.

Modelling conventions:
* Python floats are modelled as extended rationals `WithTop ℚ`;
  `float('inf')` is `⊤`.  All numeric constants occurring in the
  repository are integers, so this models every value the code
  manipulates; `NaN` and `-inf` never occur and are not modelled.
* Python sets are modelled as duplicate-free lists built by `insertS`
  (insert-if-absent, preserving insertion order).  Python's set
  iteration order is unspecified; the lists fix one concrete order,
  namely the order in which the program inserts the elements.
* Python dicts keyed by states are modelled as total functions updated
  pointwise; the examples only ever look up keys that were inserted.
* Python exceptions (the `IndexError` in `compute_zones` on a state
  with no incident transitions) are modelled by an `Option` result.
* The `while` work list loop of Kahn's algorithm is modelled as a
  fuel-indexed recursion; the fuel passed by `compute_all_zones` is the
  measure `kahn_measure`, which is proved (theorem for claim C8) to
  strictly decrease at each iteration, so the fuel never runs out and
  the function computes exactly what the Python loop computes.
-/

namespace ZoneAut

attribute [local semireducible] Rat.add Rat.mul Rat.inv Rat.sub

/-- Extended rationals: the numeric domain of the Python code
(`float` values, with `float('inf')` as `⊤`). -/
abbrev Qinf : Type := WithTop ℚ

/-- An interval `(lower, upper, lower_inc, upper_inc)` exactly as the
4-tuples used throughout the Python code. -/
structure Interval where
  lower : Qinf
  upper : Qinf
  lower_inc : Bool
  upper_inc : Bool
deriving DecidableEq

/-- A transition `(current_state, event, next_state)`. -/
abbrev Trans : Type := String × String × String

/-- An extended state `(discrete state, zone)` of the zone automaton. -/
abbrev ExtState : Type := String × Interval

/-- A zone-automaton transition `((x, zone), event, (x2, zone2))`. -/
abbrev ZTrans : Type := ExtState × String × ExtState

/-- Python `set.add`: insert an element into a set modelled as a
duplicate-free list, keeping insertion order. -/
def insertS {α : Type} [DecidableEq α] (v : α) (l : List α) : List α :=
  if v ∈ l then l else l ++ [v]

/-- Python `set.update`: insert every element of `source` into `target`. -/
def unionS {α : Type} [DecidableEq α] (target source : List α) : List α :=
  source.foldl (fun acc v => insertS v acc) target

/-- The TFA model of `TimedAutomaton.py`: `(X, E, Δ, Γ, R, X_0)`.
The Python sets of states, events and transitions are modelled as
lists fixing one iteration order. -/
structure TimedFiniteAutomaton where
  states : List String
  events : List String
  transitions : List Trans
  timing_function : Trans → Interval
  reset_function : Trans → Option Interval
  initial_states : List String

/-- `TimedFiniteAutomaton._is_within_interval`. -/
def is_within_interval (clock : Qinf) (i : Interval) : Bool :=
  (if i.lower_inc then clock ≥ i.lower else clock > i.lower) &&
  (if i.upper_inc then clock ≤ i.upper else clock < i.upper)

/-- The transition-list loop of `TimedFiniteAutomaton.get_next_state`:
return, for the first transition in the list with matching source and
event whose guard contains `clock`, the destination paired with the
updated clock (lower reset bound if the transition resets, the
unchanged clock otherwise). -/
def get_next_state_from (tfa : TimedFiniteAutomaton) (state event : String)
    (clock : Qinf) : List Trans → Option (String × Qinf)
  | [] => none
  | t :: rest =>
    if t.1 = state ∧ t.2.1 = event then
      if is_within_interval clock (tfa.timing_function t) then
        match tfa.reset_function t with
        | some reset_interval => some (t.2.2, reset_interval.lower)
        | none => some (t.2.2, clock)
      else get_next_state_from tfa state event clock rest
    else get_next_state_from tfa state event clock rest

/-- `TimedFiniteAutomaton.get_next_state`. -/
def get_next_state (tfa : TimedFiniteAutomaton) (state event : String)
    (clock : Qinf) : Option (String × Qinf) :=
  get_next_state_from tfa state event clock tfa.transitions

/-- Subtraction on `Qinf`, modelling float subtraction for the cases the
code exercises (both operands finite, or an infinite minuend). -/
def qsub : Qinf → Qinf → Qinf
  | WithTop.some a, WithTop.some b => WithTop.some (a - b)
  | _, _ => ⊤

/-- The event-sequence loop of `TimedFiniteAutomaton.run`: at each step
the clock advances by `timestamp - clock` (so becomes `timestamp`) and
`get_next_state` fires; `none` models the `None` (invalid sequence)
result. -/
def run_from (tfa : TimedFiniteAutomaton) :
    String → Qinf → List (String × Qinf) → Option (String × Qinf)
  | current_state, clock, [] => some (current_state, clock)
  | current_state, clock, (event, timestamp) :: rest =>
    let clock2 := clock + qsub timestamp clock
    match get_next_state tfa current_state event clock2 with
    | none => none
    | some (next_state, clock3) => run_from tfa next_state clock3 rest

/-- `TimedFiniteAutomaton.run`: simulate from `initial_state` with the
clock starting at `0`. -/
def run (tfa : TimedFiniteAutomaton) (initial_state : String)
    (event_sequence : List (String × Qinf)) : Option (String × Qinf) :=
  run_from tfa initial_state (WithTop.some 0) event_sequence

/-- Step 1 of `TimedFiniteAutomaton.compute_zones`: the list of
intervals relevant to `state` (guards of outgoing transitions; reset
interval — or guard when there is no reset — of incoming transitions),
in the transition-list order of the Python loop. -/
def zone_intervals_of (tfa : TimedFiniteAutomaton) (state : String) :
    List Trans → List Interval
  | [] => []
  | t :: rest =>
    ((if t.1 = state then [tfa.timing_function t] else []) ++
      (if t.2.2 = state then
        [match tfa.reset_function t with
          | some reset_interval => reset_interval
          | none => tfa.timing_function t]
        else [])) ++ zone_intervals_of tfa state rest

/-- The open intervals between consecutive distinct endpoint values
(the `for i in range(len(distinct_values) - 1)` loop of
`compute_zones`). -/
def consecutive_open_zones : List Qinf → List Interval
  | a :: b :: rest => ⟨a, b, false, false⟩ :: consecutive_open_zones (b :: rest)
  | _ => []

/-- Sort key order used by `compute_zones`: Python
`sorted(zones, key=lambda z: (z[0], z[1]))`. -/
def zone_key_le (z w : Interval) : Prop :=
  z.lower < w.lower ∨ (z.lower = w.lower ∧ z.upper ≤ w.upper)

instance : DecidableRel zone_key_le := by
  intro z w
  unfold zone_key_le
  infer_instance

/-- `distinct_values` of `TimedFiniteAutomaton.compute_zones`: the
sorted deduplicated endpoint values of the intervals relevant to the
state (the source sorts `endpoints`, then sorts the set of them
again). -/
def distinct_values (tfa : TimedFiniteAutomaton) (state : String) :
    List Qinf :=
  List.insertionSort (· ≤ ·)
    (List.insertionSort (· ≤ ·)
      (((zone_intervals_of tfa state tfa.transitions).map
        (fun i => [i.lower, i.upper])).flatten)).dedup

/-- `TimedFiniteAutomaton.compute_zones`.  Returns `none` exactly when
the Python code raises `IndexError` at `distinct_values[-1]` because
the state has no incident transition (empty endpoint list). -/
def compute_zones (tfa : TimedFiniteAutomaton) (state : String) :
    Option (List Interval) :=
  match (distinct_values tfa state).getLast? with
  | none => none
  | some last_val =>
    some (List.insertionSort zone_key_le
      ((distinct_values tfa state).map (fun v => Interval.mk v v true true) ++
        consecutive_open_zones (distinct_values tfa state) ++
        [Interval.mk last_val ⊤ false false]))

/-- `zones[s].add(v)` on the dict of bound sets of
`compute_all_zones`. -/
def add_bound (z : String → List Qinf) (s : String) (v : Qinf) :
    String → List Qinf :=
  fun x => if x = s then insertS v (z x) else z x

/-- Step 1 of `compute_all_zones`: for every transition add the guard
bounds to the source state and, when the transition resets, the reset
bounds to both the source and the destination. -/
def add_local_bounds (tfa : TimedFiniteAutomaton) :
    List Trans → (String → List Qinf) → String → List Qinf
  | [], z => z
  | t :: rest, z =>
    let g := tfa.timing_function t
    let z1 := add_bound (add_bound z t.1 g.lower) t.1 g.upper
    let z2 :=
      match tfa.reset_function t with
      | none => z1
      | some r =>
        add_bound (add_bound (add_bound (add_bound z1 t.1 r.lower) t.1 r.upper)
          t.2.2 r.lower) t.2.2 r.upper
    add_local_bounds tfa rest z2

/-- In-degree map of the subgraph of non-resetting transitions
(`in_degree[q] += 1` loop of `compute_all_zones`). -/
def bump_in_degree : List Trans → (String → Int) → String → Int
  | [], d => d
  | t :: rest, d =>
    bump_in_degree rest (fun x => if x = t.2.2 then d x + 1 else d x)

/-- `in_degree[q] -= 1` of the Kahn work-list loop: decrement the
in-degree of the destination of `t`. -/
def kahn_dec (t : Trans) (d : String → Int) : String → Int :=
  fun x => if x = t.2.2 then d x - 1 else d x

/-- The inner `for t in T_prime` loop of the Kahn work-list loop:
decrement the in-degree of the destination of every non-reset
transition leaving `p`, appending destinations whose in-degree reaches
`0` to the work list. -/
def kahn_inner : List Trans → String → (String → Int) → List String →
    (String → Int) × List String
  | [], _, d, L => (d, L)
  | t :: rest, p, d, L =>
    if t.1 = p then
      kahn_inner rest p (kahn_dec t d)
        (if kahn_dec t d t.2.2 = 0 then L ++ [t.2.2] else L)
    else kahn_inner rest p d L

/-- Termination measure of the Kahn work-list loop: length of the work
list plus the (clamped) in-degrees of the destinations of the
non-reset transitions, counted with multiplicity. -/
def kahn_measure (T_prime : List Trans) (d : String → Int)
    (L : List String) : Nat :=
  L.length + (T_prime.map (fun t => (d t.2.2).toNat)).sum

/-- The `while L:` loop of Kahn's algorithm in `compute_all_zones`,
written with explicit fuel; `compute_all_zones` passes
`kahn_measure` as fuel, which suffices (see the theorem for claim C8:
the measure strictly decreases at every iteration). -/
def kahn_loop (T_prime : List Trans) :
    Nat → (String → Int) → List String → List String → List String
  | 0, _, _, acc => acc
  | fuel + 1, d, L, acc =>
    match L with
    | [] => acc
    | p :: L1 =>
      kahn_loop T_prime fuel (kahn_inner T_prime p d L1).1
        (kahn_inner T_prime p d L1).2 (acc ++ [p])

/-- The inner `for t in T_prime` loop of the propagation step of
`compute_all_zones`: for every non-reset transition leaving `p`, add
all bounds of the source to the destination. -/
def propagate_inner (p : String) : List Trans → (String → List Qinf) →
    String → List Qinf
  | [], z => z
  | t :: rest, z =>
    if t.1 = p then
      propagate_inner p rest
        (fun x => if x = t.2.2 then unionS (z t.2.2) (z p) else z x)
    else propagate_inner p rest z

/-- The propagation step of `compute_all_zones`: process the states in
topological order, propagating bounds along non-reset transitions. -/
def propagate (T_prime : List Trans) :
    List String → (String → List Qinf) → String → List Qinf
  | [], z => z
  | p :: rest, z => propagate T_prime rest (propagate_inner p T_prime z)

/-- `T_prime` of `compute_all_zones`: the transitions with no reset. -/
def T_prime (tfa : TimedFiniteAutomaton) : List Trans :=
  tfa.transitions.filter (fun t => (tfa.reset_function t).isNone)

/-- `in_degree` of `compute_all_zones`: in-degrees in the subgraph
induced by `T_prime` (every state starts at `0`). -/
def in_degree (tfa : TimedFiniteAutomaton) : String → Int :=
  bump_in_degree (T_prime tfa) (fun _ => 0)

/-- The initial work list `L` of `compute_all_zones`: the states of
in-degree `0`, in state-list order. -/
def kahn_start (tfa : TimedFiniteAutomaton) : List String :=
  tfa.states.filter (fun s => in_degree tfa s = 0)

/-- `top_order` of `compute_all_zones`: the result of the Kahn
work-list loop. -/
def top_order (tfa : TimedFiniteAutomaton) : List String :=
  kahn_loop (T_prime tfa)
    (kahn_measure (T_prime tfa) (in_degree tfa) (kahn_start tfa))
    (in_degree tfa) (kahn_start tfa) []

/-- `TimedFiniteAutomaton.compute_all_zones`, as the map from each
state to its sorted list of clock bounds (step 1 `add_local_bounds`
from the empty sets, step 2 propagation in topological order, final
per-state sort). -/
def compute_all_zones (tfa : TimedFiniteAutomaton) : String → List Qinf :=
  fun x => List.insertionSort (· ≤ ·)
    (propagate (T_prime tfa) (top_order tfa)
      (add_local_bounds tfa tfa.transitions (fun _ => [])) x)

/-- Python string formatting `f"{v}"` of a numeric bound, for the
values the repository produces: integers print as their decimal
representation (the example intervals hold Python `int`s) and
`float('inf')` prints as `"inf"`.  Non-integral rationals (which no
example produces) print via `Rat`'s representation; like their Python
counterparts they contain a non-digit character. -/
def fmtQ : Qinf → String
  | WithTop.some q => if q.den = 1 then toString q.num else toString q
  | ⊤ => "inf"

/-- Python `str.isdigit` for the label strings the code builds:
non-empty and all characters decimal digits (expressed on the
character list of the string). -/
def pyIsdigit (s : String) : Bool :=
  !s.data.isEmpty && s.data.all (fun ch => ch.isDigit)

/-- `ZoneAutomaton.reduce_states.is_timed_label`: a numeric string or a
numeric string followed by `"+"` (`label.endswith("+")` is expressed
as the last character being `+`, and `label[:-1]` as dropping the last
character). -/
def is_timed_label (label : String) : Bool :=
  pyIsdigit label ||
    (label.data.getLast? = some '+' &&
      pyIsdigit (String.mk label.data.dropLast))

/-- `ZoneAutomaton.from_timed_automaton.time_event_label`: label of the
time-advance edge leaving `current_zone` (the `next_zone` parameter is
unused in the source as well). -/
def time_event_label (current_zone _next_zone : Interval) : String :=
  if current_zone.lower = current_zone.upper ∧ current_zone.lower_inc ∧
      current_zone.upper_inc then
    fmtQ current_zone.upper ++ "+"
  else fmtQ current_zone.upper

/-- `(lower + upper) / 2` on extended rationals; both arguments are
finite whenever the code evaluates it (the `upper == float('inf')`
branch is taken first). -/
def halfSum : Qinf → Qinf → Qinf
  | WithTop.some a, WithTop.some b => WithTop.some ((a + b) / 2)
  | _, _ => ⊤

/-- The representative time chosen inside a zone by
`ZoneAutomaton.from_timed_automaton`. -/
def rep_time (zone : Interval) : Qinf :=
  if zone.upper = ⊤ then zone.lower + 1
  else if zone.lower = zone.upper then zone.lower
  else halfSum zone.lower zone.upper

/-- The `for i in range(len(bounds) - 1)` loop of
`ZoneAutomaton.from_timed_automaton.compute_intervals`: the open
interval and the following degenerate interval for every consecutive
pair of bounds. -/
def mid_intervals : List Qinf → List Interval
  | a :: b :: rest =>
    Interval.mk a b false false :: Interval.mk b b true true ::
      mid_intervals (b :: rest)
  | _ => []

/-- `ZoneAutomaton.from_timed_automaton.compute_intervals`: from sorted
bounds `[b0, …, bn]` produce
`[b0,b0], (b0,b1), [b1,b1], …, [bn,bn], (bn, ∞)`;
the empty bound list produces no intervals. -/
def compute_intervals : List Qinf → List Interval
  | [] => []
  | b :: rest =>
    (Interval.mk b b true true :: mid_intervals (b :: rest)) ++
      [Interval.mk ((b :: rest).getLast (List.cons_ne_nil b rest)) ⊤ false false]

/-- Lexicographic comparison of character lists by code point — the
string comparison Python's `sorted` uses for the transition sort key
in the `ZoneAutomaton` constructor. -/
def chars_le : List Char → List Char → Bool
  | [], _ => true
  | _ :: _, [] => false
  | a :: as, b :: bs => if a = b then chars_le as bs else decide (a.val < b.val)

/-- `a ≤ b` on strings, by code-point lexicographic order. -/
def str_le (a b : String) : Bool :=
  chars_le a.data b.data

/-- The zone automaton `(V, E_τ, Δ_z, V_0)` of `ZoneAutomaton.py`,
with the set-valued fields modelled as duplicate-free lists. -/
structure ZoneAutomaton where
  states : List ExtState
  events : List String
  transitions : List ZTrans
  initial_states : List ExtState

/-- `ZoneAutomaton.__init__`: adds, for every extended state, the time
labels derived from the upper bound of its zone to the event set, and
sorts the transitions by the discrete name of their source. -/
def mkZoneAutomaton (states : List ExtState) (events : List String)
    (transitions : List ZTrans) (initial_states : List ExtState) :
    ZoneAutomaton where
  states := states
  events := unionS events
    (states.map (fun v => fmtQ v.2.upper) ++
      states.map (fun v => fmtQ v.2.upper ++ "+"))
  transitions :=
    List.insertionSort (fun a b => str_le a.1.1 b.1.1 = true) transitions
  initial_states := initial_states

/-- Accumulator for the sets built by
`ZoneAutomaton.from_timed_automaton`. -/
structure ZBuild where
  states : List ExtState
  events : List String
  transitions : List ZTrans
  initial_states : List ExtState

/-- The temporal-transition loop of `from_timed_automaton`: an edge
between each pair of successive zones of the same state. -/
def add_time_edges (state : String) : List Interval → ZBuild → ZBuild
  | z1 :: z2 :: rest, b =>
    let label := time_event_label z1 z2
    add_time_edges state (z2 :: rest)
      { b with
        transitions := insertS ((state, z1), label, (state, z2)) b.transitions
        events := insertS label b.events }
  | _, b => b

/-- The `for event in timed_automaton.events` loop of
`from_timed_automaton` for one extended state `(state, zone)`:
evaluate `get_next_state` at the representative time and add the
resulting event edge and destination extended state. -/
def add_event_edges (tfa : TimedFiniteAutomaton) (state : String)
    (zone : Interval) : List String → ZBuild → ZBuild
  | [], b => b
  | event :: evs, b =>
    match get_next_state tfa state event (rep_time zone) with
    | none => add_event_edges tfa state zone evs b
    | some (next_state, _) =>
      let next_zone :=
        match tfa.reset_function (state, event, next_state) with
        | some r => Interval.mk r.lower r.lower true true
        | none => zone
      add_event_edges tfa state zone evs
        { b with
          transitions :=
            insertS ((state, zone), event, (next_state, next_zone)) b.transitions
          states := insertS (next_state, next_zone) b.states }

/-- The `for ext_state, zone in zip(...)` loop of
`from_timed_automaton`: event edges for every zone of the state. -/
def add_all_event_edges (tfa : TimedFiniteAutomaton) (state : String) :
    List Interval → ZBuild → ZBuild
  | [], b => b
  | z :: zs, b =>
    add_all_event_edges tfa state zs (add_event_edges tfa state z tfa.events b)

/-- The body of the `for state in timed_automaton.states` loop of
`from_timed_automaton`: skip states with no computed bounds (matched
here through `compute_intervals`, which is empty exactly for empty
bounds), add the extended states, mark the first one initial when the
state is initial, and add the temporal and event edges. -/
def process_state (tfa : TimedFiniteAutomaton) (b : ZBuild)
    (state : String) : ZBuild :=
  match compute_intervals (compute_all_zones tfa state) with
  | [] => b
  | z0 :: zs =>
    let zone_intervals := z0 :: zs
    let b1 :=
      { b with
        states := zone_intervals.foldl (fun acc z => insertS (state, z) acc)
          b.states }
    let b2 :=
      if state ∈ tfa.initial_states then
        { b1 with initial_states := insertS (state, z0) b1.initial_states }
      else b1
    add_all_event_edges tfa state zone_intervals
      (add_time_edges state zone_intervals b2)

/-- `ZoneAutomaton.from_timed_automaton`. -/
def from_timed_automaton (tfa : TimedFiniteAutomaton) : ZoneAutomaton :=
  let b := tfa.states.foldl (process_state tfa)
    { states := [], events := tfa.events, transitions := [], initial_states := [] }
  mkZoneAutomaton b.states b.events b.transitions b.initial_states

/-- Equality of two Python sets represented as lists: same members. -/
def seteqB {α : Type} [DecidableEq α] (l1 l2 : List α) : Bool :=
  l1.all (fun v => v ∈ l2) && l2.all (fun v => v ∈ l1)

/-- `ZoneAutomaton.reduce_states.union_intervals`: convex hull of two
adjacent intervals. -/
def union_intervals (i1 i2 : Interval) : Interval :=
  Interval.mk i1.lower i2.upper i1.lower_inc i2.upper_inc

/-- `ZoneAutomaton.reduce_states.get_non_timed_outgoing`:
`(label, destination)` pairs of the non-timed transitions leaving
`ext_state`. -/
def get_non_timed_outgoing (ext_state : ExtState)
    (transitions : List ZTrans) : List (String × ExtState) :=
  (transitions.filter
    (fun t => t.1 = ext_state && !is_timed_label t.2.1)).map
    (fun t => (t.2.1, t.2.2))

/-- `ZoneAutomaton.reduce_states.get_non_timed_incoming`:
`(source, label)` pairs of the non-timed transitions entering
`ext_state`. -/
def get_non_timed_incoming (ext_state : ExtState)
    (transitions : List ZTrans) : List (ExtState × String) :=
  (transitions.filter
    (fun t => t.2.2 = ext_state && !is_timed_label t.2.1)).map
    (fun t => (t.1, t.2.1))

/-- `ZoneAutomaton.reduce_states.can_merge`: two extended states of the
same discrete state merge when a timed transition joins them, their
non-timed incoming and outgoing transition sets are empty (for the
first) or equal, their zones are adjacent, and the first zone is
closed at its upper bound. -/
def can_merge (Z : ZoneAutomaton) (s1 s2 : ExtState) : Bool :=
  if s1.1 ≠ s2.1 then false
  else if !(Z.transitions.any
      (fun t => t.1 = s1 && t.2.2 = s2 && is_timed_label t.2.1)) then false
  else
    let nt_in1 := get_non_timed_incoming s1 Z.transitions
    let nt_in2 := get_non_timed_incoming s2 Z.transitions
    let nt_out1 := get_non_timed_outgoing s1 Z.transitions
    let nt_out2 := get_non_timed_outgoing s2 Z.transitions
    if !nt_in1.isEmpty && !seteqB nt_in1 nt_in2 then false
    else if !nt_out1.isEmpty && !seteqB nt_out1 nt_out2 then false
    else if s1.2.upper ≠ s2.2.lower then false
    else if !s1.2.upper_inc then false
    else true

/-- The merging pass of `reduce_states` over the sorted extended states
of one discrete state: merge each state into the last merged state
when `can_merge` allows it, otherwise append it. -/
def merge_group (Z : ZoneAutomaton) (x : String) :
    List ExtState → List ExtState → List ExtState
  | [], acc => acc
  | s :: rest, acc =>
    match acc.getLast? with
    | some m =>
      if can_merge Z m s then
        merge_group Z x rest (acc.dropLast ++ [(x, union_intervals m.2 s.2)])
      else merge_group Z x rest (acc ++ [s])
    | none => merge_group Z x rest (acc ++ [s])

/-- The mapping step of `reduce_states`: the first merged state whose
zone covers the zone of `old_state`. -/
def find_cover (merged_group : List ExtState) (old_state : ExtState) :
    Option ExtState :=
  merged_group.find?
    (fun m => m.2.lower ≤ old_state.2.lower && old_state.2.upper ≤ m.2.upper)

/-- Python `min(merged_group, key=lambda s: s[1][0])`: first element
with minimal zone lower bound. -/
def min_by_lower : List ExtState → Option ExtState
  | [] => none
  | s :: rest =>
    some (rest.foldl (fun best v => if v.2.lower < best.2.lower then v else best) s)

/-- Accumulator for the per-discrete-state loop of `reduce_states`. -/
structure RBuild where
  new_states : List ExtState
  mapping : List (ExtState × ExtState)
  new_initial_states : List ExtState

/-- The body of the `for x, state_list in groups.items()` loop of
`reduce_states`: sort the group by zone lower bound, merge, record the
mapping of every original state to the first covering merged state
(itself when none covers), and pick the merged state with smallest
lower bound as initial when the discrete state is initial. -/
def reduce_group (Z : ZoneAutomaton) (b : RBuild) (x : String) : RBuild :=
  let state_list := List.insertionSort (fun a c => a.2.lower ≤ c.2.lower)
    (Z.states.filter (fun v => v.1 = x))
  let merged := merge_group Z x state_list []
  let mapping2 := b.mapping ++
    state_list.map (fun old => (old, (find_cover merged old).getD old))
  let ns := merged.foldl (fun acc m => insertS m acc) b.new_states
  let ni :=
    if x ∈ Z.initial_states.map (fun v => v.1) then
      match min_by_lower merged with
      | some m => insertS m b.new_initial_states
      | none => b.new_initial_states
    else b.new_initial_states
  { new_states := ns, mapping := mapping2, new_initial_states := ni }

/-- `ZoneAutomaton.reduce_states`.  The groups are traversed in the
first-occurrence order of the discrete states in `Z.states`; the
result goes through the `ZoneAutomaton` constructor
(`mkZoneAutomaton`), which re-adds the zone-derived time labels and
sorts the transitions. -/
def reduce_states (Z : ZoneAutomaton) : ZoneAutomaton :=
  let keys := Z.states.foldl (fun acc v => insertS v.1 acc) []
  let b := keys.foldl (reduce_group Z) (RBuild.mk [] [] [])
  let remap : ExtState → ExtState := fun v =>
    match b.mapping.lookup v with
    | some m => m
    | none => v
  let new_transitions := Z.transitions.foldl
    (fun acc t => insertS (remap t.1, t.2.1, remap t.2.2) acc) []
  let new_events := new_transitions.foldl (fun acc t => insertS t.2.1 acc) []
  mkZoneAutomaton b.new_states new_events new_transitions b.new_initial_states

/-- `TFA_ex1.timing_function`: the guard map of the five-state example,
with the `(0, 0, True, True)` default of `timing_map.get`. -/
def ex1_timing (t : Trans) : Interval :=
  if t = ("x0", "c", "x1") then Interval.mk (WithTop.some 1) (WithTop.some 3) true true
  else if t = ("x0", "b", "x2") then Interval.mk (WithTop.some 0) (WithTop.some 1) true true
  else if t = ("x1", "a", "x4") then Interval.mk (WithTop.some 1) (WithTop.some 3) true true
  else if t = ("x2", "c", "x3") then Interval.mk (WithTop.some 1) (WithTop.some 2) true true
  else if t = ("x3", "a", "x2") then Interval.mk (WithTop.some 0) (WithTop.some 2) true true
  else if t = ("x4", "b", "x3") then Interval.mk (WithTop.some 0) (WithTop.some 1) true true
  else Interval.mk (WithTop.some 0) (WithTop.some 0) true true

/-- `TFA_ex1.reset_function`: the reset map of the five-state example,
with the `None` default of `reset_map.get`. -/
def ex1_reset (t : Trans) : Option Interval :=
  if t = ("x0", "c", "x1") then some (Interval.mk (WithTop.some 1) (WithTop.some 1) true true)
  else if t = ("x1", "a", "x4") then some (Interval.mk (WithTop.some 0) (WithTop.some 1) true true)
  else if t = ("x3", "a", "x2") then some (Interval.mk (WithTop.some 0) (WithTop.some 0) true true)
  else if t = ("x4", "b", "x3") then some (Interval.mk (WithTop.some 0) (WithTop.some 0) true true)
  else none

/-- `TFA_ex1.define_example1`: the five-state example TFA
(sets listed in source order). -/
def example1 : TimedFiniteAutomaton where
  states := ["x0", "x1", "x2", "x3", "x4"]
  events := ["a", "b", "c"]
  transitions :=
    [("x0", "c", "x1"), ("x0", "b", "x2"), ("x1", "a", "x4"),
      ("x2", "c", "x3"), ("x3", "a", "x2"), ("x4", "b", "x3")]
  timing_function := ex1_timing
  reset_function := ex1_reset
  initial_states := ["x0"]

/-- Test TFA for claim C1: one transition with guard `[1,2]` and reset
`[3,4]`, so the reset bounds `3, 4` are disjoint from the guard
bounds. -/
def tfaReset : TimedFiniteAutomaton where
  states := ["x0", "x1"]
  events := ["a"]
  transitions := [("x0", "a", "x1")]
  timing_function := fun _ => Interval.mk (WithTop.some 1) (WithTop.some 2) true true
  reset_function := fun _ => some (Interval.mk (WithTop.some 3) (WithTop.some 4) true true)
  initial_states := ["x0"]

/-- Test TFA for claim C2: initial state `x0` whose only transition has
guard `[1,2]` and no reset, so `0` is never inserted as a bound. -/
def tfaNoZero : TimedFiniteAutomaton where
  states := ["x0", "x1"]
  events := ["a"]
  transitions := [("x0", "a", "x1")]
  timing_function := fun _ => Interval.mk (WithTop.some 1) (WithTop.some 2) true true
  reset_function := fun _ => none
  initial_states := ["x0"]

/-- Test TFA for claim C3: one transition with the unbounded guard
`[0, +∞)` and no reset, putting `+∞` into the bound sets. -/
def tfaInf : TimedFiniteAutomaton where
  states := ["x0", "x1"]
  events := ["e"]
  transitions := [("x0", "e", "x1")]
  timing_function := fun _ => Interval.mk (WithTop.some 0) ⊤ true false
  reset_function := fun _ => none
  initial_states := ["x0"]

/-- Test TFA for claim C4: discrete state `x5` has no incoming
transition and is not initial (it has one outgoing transition so that
its bound set is non-empty and it contributes extended states). -/
def tfaUnreach : TimedFiniteAutomaton where
  states := ["x0", "x1", "x5"]
  events := ["a", "b"]
  transitions := [("x0", "a", "x1"), ("x5", "b", "x1")]
  timing_function := fun _ => Interval.mk (WithTop.some 1) (WithTop.some 2) true true
  reset_function := fun _ => none
  initial_states := ["x0"]

/-- Test TFA for claim C8: a two-state cycle of non-resetting
transitions, defeating the topological order. -/
def tfaCycle : TimedFiniteAutomaton where
  states := ["x0", "x1"]
  events := ["a", "b"]
  transitions := [("x0", "a", "x1"), ("x1", "b", "x0")]
  timing_function := fun t =>
    if t = ("x0", "a", "x1") then Interval.mk (WithTop.some 1) (WithTop.some 2) true true
    else Interval.mk (WithTop.some 3) (WithTop.some 4) true true
  reset_function := fun _ => none
  initial_states := ["x0"]

/-- Test TFA for claim C7: two guards `[0,1]` and `[1,5]` at `x0`, so
that the computed bound set of `x0` is exactly `{0, 1, 5}`. -/
def tfa015 : TimedFiniteAutomaton where
  states := ["x0", "x1"]
  events := ["a", "b"]
  transitions := [("x0", "a", "x1"), ("x0", "b", "x1")]
  timing_function := fun t =>
    if t = ("x0", "a", "x1") then Interval.mk (WithTop.some 0) (WithTop.some 1) true true
    else Interval.mk (WithTop.some 1) (WithTop.some 5) true true
  reset_function := fun _ =>
    some (Interval.mk (WithTop.some 0) (WithTop.some 1) true true)
  initial_states := ["x0"]

/-- The property that a value is a guard or reset endpoint of some
transition of the TFA — the only values step 1 of the bound solver
ever inserts. -/
def is_guard_or_reset_bound (tfa : TimedFiniteAutomaton) (v : Qinf) : Prop :=
  ∃ t ∈ tfa.transitions,
    v = (tfa.timing_function t).lower ∨ v = (tfa.timing_function t).upper ∨
      ∃ r, tfa.reset_function t = some r ∧ (v = r.lower ∨ v = r.upper)

/-- Extended state `(x, [1,1])` of the zone automaton used for
claim C9. -/
def zA : ExtState := ("x", Interval.mk (WithTop.some 1) (WithTop.some 1) true true)

/-- Extended state `(x, (1,5))` of the zone automaton used for
claim C9. -/
def zX : ExtState := ("x", Interval.mk (WithTop.some 1) (WithTop.some 5) false false)

/-- Extended state `(x, (2,3))` of the zone automaton used for
claim C9; its zone is covered by the zone of `zX`. -/
def zX0 : ExtState := ("x", Interval.mk (WithTop.some 2) (WithTop.some 3) false false)

/-- Zone automaton for claim C9, built through the constructor as a
caller would: its only transition is the timed edge
`(x,[1,1]) —"7"→ (x,(2,3))`, whose destination is remapped to
`(x,(1,5))` by the first reduction because that zone covers `(2,3)`. -/
def zZ0 : ZoneAutomaton :=
  mkZoneAutomaton [zA, zX, zX0] [] [(zA, "7", zX0)] [zA]

theorem mem_insertS {α : Type} [DecidableEq α] {v w : α} {l : List α} :
    w ∈ insertS v l ↔ w = v ∨ w ∈ l := by
  unfold insertS
  by_cases h : v ∈ l
  · simp only [if_pos h]
    constructor
    · exact Or.inr
    · rintro (rfl | hw)
      · exact h
      · exact hw
  · simp [if_neg h, or_comm]

theorem mem_insertS_self {α : Type} [DecidableEq α] (v : α) (l : List α) :
    v ∈ insertS v l :=
  mem_insertS.mpr (Or.inl rfl)

theorem mem_insertS_of_mem {α : Type} [DecidableEq α] {w : α} (v : α)
    {l : List α} (h : w ∈ l) : w ∈ insertS v l :=
  mem_insertS.mpr (Or.inr h)

theorem mem_unionS {α : Type} [DecidableEq α] {w : α}
    {target source : List α} :
    w ∈ unionS target source ↔ w ∈ target ∨ w ∈ source := by
  induction source generalizing target with
  | nil => simp [unionS]
  | cons a rest ih =>
    unfold unionS at ih ⊢
    simp only [List.foldl_cons]
    rw [ih, mem_insertS]
    simp only [List.mem_cons]
    tauto

theorem mem_insertionSort {α : Type} (r : α → α → Prop) [DecidableRel r]
    {w : α} {l : List α} : w ∈ List.insertionSort r l ↔ w ∈ l :=
  (List.perm_insertionSort r l).mem_iff

theorem mem_add_bound {z : String → List Qinf} {s x : String} {v w : Qinf} :
    w ∈ add_bound z s v x ↔ (x = s ∧ w = v) ∨ w ∈ z x := by
  unfold add_bound
  by_cases h : x = s
  · simp [h, mem_insertS]
  · simp [h]

theorem mem_add_bound_of_mem {z : String → List Qinf} {s x : String}
    {v w : Qinf} (h : w ∈ z x) : w ∈ add_bound z s v x :=
  mem_add_bound.mpr (Or.inr h)

theorem add_bound_self (z : String → List Qinf) (s : String) (v : Qinf) :
    v ∈ add_bound z s v s :=
  mem_add_bound.mpr (Or.inl ⟨rfl, rfl⟩)

theorem mem_add_local_bounds_of_mem (tfa : TimedFiniteAutomaton)
    (ts : List Trans) {z : String → List Qinf} {x : String} {w : Qinf}
    (h : w ∈ z x) : w ∈ add_local_bounds tfa ts z x := by
  induction ts generalizing z with
  | nil => exact h
  | cons t rest ih =>
    unfold add_local_bounds
    cases hr : tfa.reset_function t with
    | none =>
      simp only [hr]
      exact ih (mem_add_bound_of_mem (mem_add_bound_of_mem h))
    | some r =>
      simp only [hr]
      exact ih (mem_add_bound_of_mem (mem_add_bound_of_mem
        (mem_add_bound_of_mem (mem_add_bound_of_mem
          (mem_add_bound_of_mem (mem_add_bound_of_mem h))))))

theorem add_local_bounds_reset_mem (tfa : TimedFiniteAutomaton)
    {ts : List Trans} {t : Trans} {r : Interval}
    (ht : t ∈ ts) (hr : tfa.reset_function t = some r)
    (z : String → List Qinf) :
    (r.lower ∈ add_local_bounds tfa ts z t.1 ∧
      r.upper ∈ add_local_bounds tfa ts z t.1) ∧
    (r.lower ∈ add_local_bounds tfa ts z t.2.2 ∧
      r.upper ∈ add_local_bounds tfa ts z t.2.2) := by
  induction ts generalizing z with
  | nil => cases ht
  | cons a rest ih =>
    rcases List.mem_cons.mp ht with rfl | hmem
    · unfold add_local_bounds
      simp only [hr]
      refine ⟨⟨?_, ?_⟩, ?_, ?_⟩ <;>
        refine mem_add_local_bounds_of_mem tfa rest ?_
      · exact mem_add_bound_of_mem (mem_add_bound_of_mem
          (mem_add_bound_of_mem (add_bound_self _ _ _)))
      · exact mem_add_bound_of_mem (mem_add_bound_of_mem
          (add_bound_self _ _ _))
      · exact mem_add_bound_of_mem (add_bound_self _ _ _)
      · exact add_bound_self _ _ _
    · unfold add_local_bounds
      cases hra : tfa.reset_function a with
      | none => exact ih hmem _
      | some ra => exact ih hmem _

theorem mem_propagate_inner_of_mem (p : String) (ts : List Trans)
    {z : String → List Qinf} {x : String} {w : Qinf}
    (h : w ∈ z x) : w ∈ propagate_inner p ts z x := by
  induction ts generalizing z with
  | nil => exact h
  | cons t rest ih =>
    unfold propagate_inner
    by_cases hp : t.1 = p
    · simp only [if_pos hp]
      refine ih ?_
      by_cases hx : x = t.2.2
      · subst hx
        simp only [if_pos rfl]
        exact mem_unionS.mpr (Or.inl h)
      · simpa [hx] using h
    · simp only [if_neg hp]
      exact ih h

theorem mem_propagate_of_mem (ts : List Trans) (order : List String)
    {z : String → List Qinf} {x : String} {w : Qinf}
    (h : w ∈ z x) : w ∈ propagate ts order z x := by
  induction order generalizing z with
  | nil => exact h
  | cons p rest ih => exact ih (mem_propagate_inner_of_mem p ts h)

theorem add_bound_sound {tfa : TimedFiniteAutomaton}
    {z : String → List Qinf} {s : String} {v : Qinf}
    (hz : ∀ x w, w ∈ z x → is_guard_or_reset_bound tfa w)
    (hv : is_guard_or_reset_bound tfa v) :
    ∀ x w, w ∈ add_bound z s v x → is_guard_or_reset_bound tfa w := by
  intro x w hw
  rcases mem_add_bound.mp hw with ⟨_, rfl⟩ | hmem
  · exact hv
  · exact hz x w hmem

theorem add_local_bounds_sound (tfa : TimedFiniteAutomaton)
    {ts : List Trans} (hts : ∀ t ∈ ts, t ∈ tfa.transitions)
    {z : String → List Qinf}
    (hz : ∀ x w, w ∈ z x → is_guard_or_reset_bound tfa w) :
    ∀ x w, w ∈ add_local_bounds tfa ts z x →
      is_guard_or_reset_bound tfa w := by
  induction ts generalizing z with
  | nil => exact hz
  | cons t rest ih =>
    have htt : t ∈ tfa.transitions := hts t (List.mem_cons_self t rest)
    have hrest : ∀ u ∈ rest, u ∈ tfa.transitions :=
      fun u hu => hts u (List.mem_cons_of_mem t hu)
    intro x w hw
    unfold add_local_bounds at hw
    cases hr : tfa.reset_function t with
    | none =>
      simp only [hr] at hw
      refine ih hrest ?_ x w hw
      exact add_bound_sound (add_bound_sound hz ⟨t, htt, Or.inl rfl⟩)
        ⟨t, htt, Or.inr (Or.inl rfl)⟩
    | some r =>
      simp only [hr] at hw
      refine ih hrest ?_ x w hw
      exact add_bound_sound (add_bound_sound (add_bound_sound
        (add_bound_sound (add_bound_sound (add_bound_sound hz
          ⟨t, htt, Or.inl rfl⟩)
          ⟨t, htt, Or.inr (Or.inl rfl)⟩)
          ⟨t, htt, Or.inr (Or.inr ⟨r, hr, Or.inl rfl⟩)⟩)
          ⟨t, htt, Or.inr (Or.inr ⟨r, hr, Or.inr rfl⟩)⟩)
          ⟨t, htt, Or.inr (Or.inr ⟨r, hr, Or.inl rfl⟩)⟩)
          ⟨t, htt, Or.inr (Or.inr ⟨r, hr, Or.inr rfl⟩)⟩

theorem propagate_inner_sound {tfa : TimedFiniteAutomaton} (p : String)
    (ts : List Trans) {z : String → List Qinf}
    (hz : ∀ x w, w ∈ z x → is_guard_or_reset_bound tfa w) :
    ∀ x w, w ∈ propagate_inner p ts z x →
      is_guard_or_reset_bound tfa w := by
  induction ts generalizing z with
  | nil => exact hz
  | cons t rest ih =>
    intro x w hw
    unfold propagate_inner at hw
    by_cases hp : t.1 = p
    · simp only [if_pos hp] at hw
      refine ih ?_ x w hw
      intro y u hu
      by_cases hy : y = t.2.2
      · subst hy
        simp only [if_pos rfl] at hu
        rcases mem_unionS.mp hu with h1 | h2
        · exact hz _ u h1
        · exact hz _ u h2
      · simp only [if_neg hy] at hu
        exact hz y u hu
    · simp only [if_neg hp] at hw
      exact ih hz x w hw

theorem propagate_sound {tfa : TimedFiniteAutomaton} (ts : List Trans)
    (order : List String) {z : String → List Qinf}
    (hz : ∀ x w, w ∈ z x → is_guard_or_reset_bound tfa w) :
    ∀ x w, w ∈ propagate ts order z x → is_guard_or_reset_bound tfa w := by
  induction order generalizing z with
  | nil => exact hz
  | cons p rest ih => exact ih (propagate_inner_sound p ts hz)

/-- C1, counterexample: in `tfaReset` the only transition has guard
`[1,2]` and reset `[3,4]`; the reset bounds `3` and `4` land in the
bound set of the *source* state `x0` even though no guard bound equals
them, so bound-solver step 2 does not follow the `q`-only variant. -/
theorem C1_counterexample :
    (WithTop.some 3 : Qinf) ∈ compute_all_zones tfaReset "x0" ∧
    (WithTop.some 4 : Qinf) ∈ compute_all_zones tfaReset "x0" ∧
    (∀ t ∈ tfaReset.transitions,
      (tfaReset.timing_function t).lower ≠ (WithTop.some 3 : Qinf) ∧
      (tfaReset.timing_function t).upper ≠ (WithTop.some 3 : Qinf)) ∧
    tfaReset.reset_function ("x0", "a", "x1") =
      some (Interval.mk (WithTop.some 3) (WithTop.some 4) true true) := by
  refine ⟨by decide, by decide, by decide, rfl⟩

/-- C1, amended: for every transition `t` with `R(t) ≠ ⊥`, the solver
adds `lo(R(t))` and `hi(R(t))` to the bound sets of *both* the source
`p` and the destination `q` (the code implements the both-`p`-and-`q`
variant, not the `q`-only variant the spec adopts). -/
theorem C1_reset_bounds_in_both_endpoints (tfa : TimedFiniteAutomaton)
    (t : Trans) (r : Interval) (ht : t ∈ tfa.transitions)
    (hr : tfa.reset_function t = some r) :
    (r.lower ∈ compute_all_zones tfa t.1 ∧
      r.upper ∈ compute_all_zones tfa t.1) ∧
    (r.lower ∈ compute_all_zones tfa t.2.2 ∧
      r.upper ∈ compute_all_zones tfa t.2.2) := by
  have h := add_local_bounds_reset_mem tfa ht hr (fun _ => [])
  unfold compute_all_zones
  exact ⟨⟨(mem_insertionSort _).mpr (mem_propagate_of_mem _ _ h.1.1),
      (mem_insertionSort _).mpr (mem_propagate_of_mem _ _ h.1.2)⟩,
    (mem_insertionSort _).mpr (mem_propagate_of_mem _ _ h.2.1),
    (mem_insertionSort _).mpr (mem_propagate_of_mem _ _ h.2.2)⟩

/-- C1, witness for the amended theorem at the concrete transition of
`tfaReset`. -/
theorem C1_witness :
    (WithTop.some 3 : Qinf) ∈ compute_all_zones tfaReset "x0" ∧
    (WithTop.some 4 : Qinf) ∈ compute_all_zones tfaReset "x1" := by
  have h := C1_reset_bounds_in_both_endpoints tfaReset ("x0", "a", "x1")
    (Interval.mk (WithTop.some 3) (WithTop.some 4) true true)
    (by decide) rfl
  exact ⟨h.1.1, h.2.2⟩

/-- C2, counterexample: `x0` is initial in `tfaNoZero`, yet the bound
solver's result for `x0` is `[1, 2]` and does not contain `0` — the
code never adds `0` for initial states. -/
theorem C2_counterexample :
    "x0" ∈ tfaNoZero.initial_states ∧
    (WithTop.some 0 : Qinf) ∉ compute_all_zones tfaNoZero "x0" := by
  refine ⟨by decide, by decide⟩

/-- C2, amended: the bound solver initializes every bound set to empty
and never adds `0` for initial states: every value in its result is a
guard or reset endpoint of some transition (so `0` appears only when a
guard or reset contributes it). -/
theorem C2_bounds_are_guard_or_reset_bounds (tfa : TimedFiniteAutomaton)
    (x : String) (v : Qinf) (hv : v ∈ compute_all_zones tfa x) :
    is_guard_or_reset_bound tfa v := by
  unfold compute_all_zones at hv
  refine propagate_sound _ _ ?_ x v ((mem_insertionSort _).mp hv)
  refine add_local_bounds_sound tfa (fun t ht => ht) ?_
  intro y w hw
  cases hw

/-- C2, witness for the amended theorem: the bound `1` computed for
`x0` of `tfaNoZero` is a guard or reset endpoint. -/
theorem C2_witness : is_guard_or_reset_bound tfaNoZero (WithTop.some 1) :=
  C2_bounds_are_guard_or_reset_bounds tfaNoZero "x0" (WithTop.some 1) (by decide)

theorem mid_intervals_last_deg_mem (l : List Qinf) (a c : Qinf)
    (h : l.getLast? = some c) :
    Interval.mk c c true true ∈ mid_intervals (a :: l) := by
  induction l generalizing a with
  | nil => cases h
  | cons b rest ih =>
    cases rest with
    | nil =>
      simp only [List.getLast?_singleton, Option.some.injEq] at h
      subst h
      simp [mid_intervals]
    | cons d r2 =>
      rw [List.getLast?_cons_cons] at h
      have hmem := ih b h
      simp only [mid_intervals]
      exact List.mem_cons_of_mem _ (List.mem_cons_of_mem _ hmem)

/-- C3, amended: `compute_intervals` does not discard `+∞`: whenever
the sorted bound list ends with `+∞`, the enumeration produces both a
degenerate zone at `+∞` and an open zone whose lower bound is `+∞`. -/
theorem C3_inf_not_stripped (bounds : List Qinf)
    (h : bounds.getLast? = some ⊤) :
    Interval.mk ⊤ ⊤ true true ∈ compute_intervals bounds ∧
    Interval.mk ⊤ ⊤ false false ∈ compute_intervals bounds := by
  cases bounds with
  | nil => cases h
  | cons b rest =>
    have hlast : (b :: rest).getLast (List.cons_ne_nil b rest) = ⊤ := by
      have := List.getLast?_eq_getLast (b :: rest) (List.cons_ne_nil b rest)
      rw [this] at h
      exact Option.some.inj h
    constructor
    · cases rest with
      | nil =>
        have hb : b = ⊤ := by simpa [List.getLast] using hlast
        subst hb
        simp [compute_intervals, mid_intervals]
      | cons d r2 =>
        have h2 : (d :: r2).getLast? = some ⊤ := by
          rw [List.getLast?_cons_cons] at h
          exact h
        have hmem := mid_intervals_last_deg_mem (d :: r2) b ⊤ h2
        show Interval.mk ⊤ ⊤ true true ∈
          (Interval.mk b b true true ::
            mid_intervals (b :: d :: r2)) ++
          [Interval.mk ((b :: d :: r2).getLast (List.cons_ne_nil b (d :: r2)))
            ⊤ false false]
        exact List.mem_append_left _ (List.mem_cons_of_mem _ hmem)
    · show Interval.mk ⊤ ⊤ false false ∈
        (Interval.mk b b true true :: mid_intervals (b :: rest)) ++
        [Interval.mk ((b :: rest).getLast (List.cons_ne_nil b rest)) ⊤ false false]
      rw [hlast]
      exact List.mem_append_right _ (List.mem_singleton.mpr rfl)

/-- C3, witness for the amended theorem at the bound list `[0, +∞]`
(the bound list `compute_all_zones` computes for `x0` of `tfaInf`). -/
theorem C3_witness :
    Interval.mk ⊤ ⊤ true true ∈ compute_intervals [WithTop.some 0, ⊤] ∧
    Interval.mk ⊤ ⊤ false false ∈ compute_intervals [WithTop.some 0, ⊤] :=
  C3_inf_not_stripped [WithTop.some 0, ⊤] rfl

/-- C3, counterexample: for `tfaInf` the bound set of `x0` ends with
`+∞`, yet the constructed zone automaton contains the extended states
`(x0, [∞,∞])` (degenerate at `+∞`) and `(x0, (∞,∞))` (lower bound
`+∞`) — `+∞` is not stripped before interval enumeration. -/
theorem C3_counterexample :
    (compute_all_zones tfaInf "x0").getLast? = some ⊤ ∧
    ("x0", Interval.mk ⊤ ⊤ true true) ∈ (from_timed_automaton tfaInf).states ∧
    ("x0", Interval.mk ⊤ ⊤ false false) ∈ (from_timed_automaton tfaInf).states := by
  refine ⟨rfl, by decide, by decide⟩

/-- C4, counterexample: in `tfaUnreach` the discrete state `x5` has no
incoming transition and is not initial, yet after zone construction
and reduction an extended state with discrete component `x5` remains —
`reduce_states` does not restrict to the extended states reachable
from `V_0`. -/
theorem C4_counterexample :
    (∀ t ∈ tfaUnreach.transitions, t.2.2 ≠ "x5") ∧
    "x5" ∉ tfaUnreach.initial_states ∧
    ∃ v ∈ (reduce_states (from_timed_automaton tfaUnreach)).states,
      v.1 = "x5" := by
  refine ⟨by decide, by decide, by decide⟩

/-- C4, amended: the reducer merges zone-adjacent extended states of
the same discrete state and performs no reachability pruning: on
`tfaUnreach`, all four extended states of the unreachable `x5` are
still present after zone construction and reduction. -/
theorem C4_reducer_keeps_unreachable :
    ("x5", Interval.mk (WithTop.some 1) (WithTop.some 1) true true) ∈
      (reduce_states (from_timed_automaton tfaUnreach)).states ∧
    ("x5", Interval.mk (WithTop.some 1) (WithTop.some 2) false false) ∈
      (reduce_states (from_timed_automaton tfaUnreach)).states ∧
    ("x5", Interval.mk (WithTop.some 2) (WithTop.some 2) true true) ∈
      (reduce_states (from_timed_automaton tfaUnreach)).states ∧
    ("x5", Interval.mk (WithTop.some 2) ⊤ false false) ∈
      (reduce_states (from_timed_automaton tfaUnreach)).states := by
  refine ⟨by decide, by decide, by decide, by decide⟩

theorem get_next_state_from_eq_none_iff (tfa : TimedFiniteAutomaton)
    (s e : String) (c : Qinf) (l : List Trans) :
    get_next_state_from tfa s e c l = none ↔
      ¬ ∃ t ∈ l, t.1 = s ∧ t.2.1 = e ∧
        is_within_interval c (tfa.timing_function t) = true := by
  induction l with
  | nil => simp [get_next_state_from]
  | cons t rest ih =>
    unfold get_next_state_from
    by_cases hm : t.1 = s ∧ t.2.1 = e
    · simp only [if_pos hm]
      by_cases hw : is_within_interval c (tfa.timing_function t) = true
      · simp only [if_pos hw]
        cases hr : tfa.reset_function t with
        | none =>
          simp only []
          constructor
          · intro h
            cases h
          · intro h
            exact absurd ⟨t, List.mem_cons_self t rest, hm.1, hm.2, hw⟩ h
        | some r =>
          simp only []
          constructor
          · intro h
            cases h
          · intro h
            exact absurd ⟨t, List.mem_cons_self t rest, hm.1, hm.2, hw⟩ h
      · simp only [if_neg hw]
        rw [ih]
        constructor
        · intro h h2
          rcases h2 with ⟨u, hu, h3⟩
          rcases List.mem_cons.mp hu with rfl | hmem
          · exact hw h3.2.2
          · exact h ⟨u, hmem, h3⟩
        · intro h h2
          rcases h2 with ⟨u, hu, h3⟩
          exact h ⟨u, List.mem_cons_of_mem t hu, h3⟩
    · simp only [if_neg hm]
      rw [ih]
      constructor
      · intro h h2
        rcases h2 with ⟨u, hu, h3⟩
        rcases List.mem_cons.mp hu with rfl | hmem
        · exact hm ⟨h3.1, h3.2.1⟩
        · exact h ⟨u, hmem, h3⟩
      · intro h h2
        rcases h2 with ⟨u, hu, h3⟩
        exact h ⟨u, List.mem_cons_of_mem t hu, h3⟩

theorem get_next_state_from_eq_some (tfa : TimedFiniteAutomaton)
    (s e : String) (c : Qinf) (l : List Trans) (q : String) (c2 : Qinf)
    (h : get_next_state_from tfa s e c l = some (q, c2)) :
    ∃ t ∈ l, t.1 = s ∧ t.2.1 = e ∧ t.2.2 = q ∧
      is_within_interval c (tfa.timing_function t) = true ∧
      ((∃ r, tfa.reset_function t = some r ∧ c2 = r.lower) ∨
        (tfa.reset_function t = none ∧ c2 = c)) := by
  induction l with
  | nil => cases h
  | cons t rest ih =>
    unfold get_next_state_from at h
    by_cases hm : t.1 = s ∧ t.2.1 = e
    · rw [if_pos hm] at h
      by_cases hw : is_within_interval c (tfa.timing_function t) = true
      · rw [if_pos hw] at h
        cases hr : tfa.reset_function t with
        | none =>
          rw [hr] at h
          injection h with h2
          injection h2 with h3 h4
          exact ⟨t, List.mem_cons_self t rest, hm.1, hm.2, h3, hw,
            Or.inr ⟨hr, h4.symm⟩⟩
        | some r =>
          rw [hr] at h
          injection h with h2
          injection h2 with h3 h4
          exact ⟨t, List.mem_cons_self t rest, hm.1, hm.2, h3, hw,
            Or.inl ⟨r, hr, h4.symm⟩⟩
      · rw [if_neg hw] at h
        rcases ih h with ⟨u, hu, h3⟩
        exact ⟨u, List.mem_cons_of_mem t hu, h3⟩
    · rw [if_neg hm] at h
      rcases ih h with ⟨u, hu, h3⟩
      exact ⟨u, List.mem_cons_of_mem t hu, h3⟩

/-- C5: `get_next_state(x, e, c)` returns `None` iff no transition
`t = (x, e, q)` has `c` in its guard; and whenever it returns a pair
`(q, c2)`, that pair comes from a transition `t = (x, e, q)` whose
guard contains `c`, with `c2` the lower reset bound when `R(t) ≠ ⊥`
and the unchanged clock `c` otherwise. -/
theorem C5_get_next_state_spec (tfa : TimedFiniteAutomaton)
    (x e : String) (c : Qinf) :
    (get_next_state tfa x e c = none ↔
      ¬ ∃ t ∈ tfa.transitions, t.1 = x ∧ t.2.1 = e ∧
        is_within_interval c (tfa.timing_function t) = true) ∧
    (∀ q c2, get_next_state tfa x e c = some (q, c2) →
      ∃ t ∈ tfa.transitions, t.1 = x ∧ t.2.1 = e ∧ t.2.2 = q ∧
        is_within_interval c (tfa.timing_function t) = true ∧
        ((∃ r, tfa.reset_function t = some r ∧ c2 = r.lower) ∨
          (tfa.reset_function t = none ∧ c2 = c))) :=
  ⟨get_next_state_from_eq_none_iff tfa x e c tfa.transitions,
    fun q c2 h => get_next_state_from_eq_some tfa x e c tfa.transitions q c2 h⟩

/-- C5, witness: on the five-state example, firing `b` at `x0` with
clock `1/2` yields a transition with the stated properties. -/
theorem C5_witness :
    ∃ t ∈ example1.transitions, t.1 = "x0" ∧ t.2.1 = "b" ∧ t.2.2 = "x2" ∧
      is_within_interval (WithTop.some (1/2))
        (example1.timing_function t) = true ∧
      ((∃ r, example1.reset_function t = some r ∧
          (WithTop.some (1/2) : Qinf) = r.lower) ∨
        (example1.reset_function t = none ∧
          (WithTop.some (1/2) : Qinf) = WithTop.some (1/2))) :=
  (C5_get_next_state_spec example1 "x0" "b" (WithTop.some (1/2))).2
    "x2" (WithTop.some (1/2)) (by decide)

/-- C6: simulating the five-state example from `x0` on the timed trace
`(b, 0.5), (c, 2), (a, 2)` ends in state `x2` with clock `0.0`. -/
theorem C6_run_example1 :
    run example1 "x0"
      [("b", WithTop.some (1/2)), ("c", WithTop.some 2), ("a", WithTop.some 2)] =
      some ("x2", WithTop.some 0) := by
  decide

/-- C7: whenever the computed bound list of a state is `[0, 1, 5]`, the
interval enumeration produces exactly
`[0,0], (0,1), [1,1], (1,5), [5,5], (5,∞)`, in this order. -/
theorem C7_intervals_015 (tfa : TimedFiniteAutomaton) (x : String)
    (h : compute_all_zones tfa x =
      [WithTop.some 0, WithTop.some 1, WithTop.some 5]) :
    compute_intervals (compute_all_zones tfa x) =
      [Interval.mk (WithTop.some 0) (WithTop.some 0) true true,
        Interval.mk (WithTop.some 0) (WithTop.some 1) false false,
        Interval.mk (WithTop.some 1) (WithTop.some 1) true true,
        Interval.mk (WithTop.some 1) (WithTop.some 5) false false,
        Interval.mk (WithTop.some 5) (WithTop.some 5) true true,
        Interval.mk (WithTop.some 5) ⊤ false false] := by
  rw [h]
  decide

/-- C7, witness: `tfa015` computes the bound list `[0, 1, 5]` for `x0`,
and the enumeration at `x0` is the six stated zones. -/
theorem C7_witness :
    compute_intervals (compute_all_zones tfa015 "x0") =
      [Interval.mk (WithTop.some 0) (WithTop.some 0) true true,
        Interval.mk (WithTop.some 0) (WithTop.some 1) false false,
        Interval.mk (WithTop.some 1) (WithTop.some 1) true true,
        Interval.mk (WithTop.some 1) (WithTop.some 5) false false,
        Interval.mk (WithTop.some 5) (WithTop.some 5) true true,
        Interval.mk (WithTop.some 5) ⊤ false false] :=
  C7_intervals_015 tfa015 "x0" (by decide)

theorem kahn_inner_fst_le (ts : List Trans) (p : String)
    (d : String → Int) (L : List String) (q : String) :
    (kahn_inner ts p d L).1 q ≤ d q := by
  induction ts generalizing d L with
  | nil => exact le_refl _
  | cons t rest ih =>
    unfold kahn_inner
    by_cases hp : t.1 = p
    · rw [if_pos hp]
      refine le_trans (ih (kahn_dec t d) _ ) ?_
      unfold kahn_dec
      by_cases hq : q = t.2.2
      · simp only [if_pos hq]
        omega
      · simp only [if_neg hq]
        exact le_refl _
    · rw [if_neg hp]
      exact ih d L

theorem kahn_inner_measure_le (ts : List Trans) (p : String)
    (d : String → Int) (L : List String) :
    (kahn_inner ts p d L).2.length +
      (ts.map (fun t => ((kahn_inner ts p d L).1 t.2.2).toNat)).sum ≤
    L.length + (ts.map (fun t => (d t.2.2).toNat)).sum := by
  induction ts generalizing d L with
  | nil => simp [kahn_inner]
  | cons t rest ih =>
    unfold kahn_inner
    by_cases hp : t.1 = p
    · rw [if_pos hp]
      have hrec := ih (kahn_dec t d)
        (if kahn_dec t d t.2.2 = 0 then L ++ [t.2.2] else L)
      have hhead : ((kahn_inner rest p (kahn_dec t d)
          (if kahn_dec t d t.2.2 = 0 then L ++ [t.2.2] else L)).1 t.2.2).toNat ≤
          (kahn_dec t d t.2.2).toNat := by
        have := kahn_inner_fst_le rest p (kahn_dec t d)
          (if kahn_dec t d t.2.2 = 0 then L ++ [t.2.2] else L) t.2.2
        omega
      have hsum : (rest.map (fun u => (kahn_dec t d u.2.2).toNat)).sum ≤
          (rest.map (fun u => (d u.2.2).toNat)).sum := by
        refine List.sum_le_sum ?_
        intro u _
        unfold kahn_dec
        by_cases hu : u.2.2 = t.2.2
        · simp only [if_pos hu]
          omega
        · simp only [if_neg hu]
          omega
      have hd : kahn_dec t d t.2.2 = d t.2.2 - 1 := by
        unfold kahn_dec
        rw [if_pos rfl]
      have hL : (if kahn_dec t d t.2.2 = 0 then L ++ [t.2.2] else L).length +
          (kahn_dec t d t.2.2).toNat ≤ L.length + (d t.2.2).toNat := by
        rw [hd]
        by_cases h0 : d t.2.2 - 1 = 0
        · rw [if_pos h0, List.length_append]
          simp only [List.length_singleton]
          omega
        · rw [if_neg h0]
          omega
      simp only [List.map_cons, List.sum_cons]
      omega
    · rw [if_neg hp]
      have hrec := ih d L
      have hhead : ((kahn_inner rest p d L).1 t.2.2).toNat ≤ (d t.2.2).toNat := by
        have := kahn_inner_fst_le rest p d L t.2.2
        omega
      simp only [List.map_cons, List.sum_cons]
      omega

/-- C8: the Kahn work-list loop of `compute_all_zones` terminates on
every input: each iteration (pop one state, run the inner
decrement-and-append pass) strictly decreases the natural-number
measure `kahn_measure`, so the loop admits no infinite run and the
fuel `kahn_measure` passed by `compute_all_zones` suffices.  On the
concrete two-state non-reset cycle `tfaCycle`, the loop exits with the
cycle nodes unprocessed (`top_order` is empty) and each state keeps
exactly its locally-added bounds. -/
theorem C8_kahn_terminates :
    (∀ (ts : List Trans) (p : String) (d : String → Int) (L : List String),
      kahn_measure ts (kahn_inner ts p d L).1 (kahn_inner ts p d L).2 <
        kahn_measure ts d (p :: L)) ∧
    top_order tfaCycle = [] ∧
    compute_all_zones tfaCycle "x0" = [WithTop.some 1, WithTop.some 2] ∧
    compute_all_zones tfaCycle "x1" = [WithTop.some 3, WithTop.some 4] := by
  refine ⟨?_, by decide, by decide, by decide⟩
  intro ts p d L
  have h := kahn_inner_measure_le ts p d L
  unfold kahn_measure
  simp only [List.length_cons]
  omega

/-- C9, counterexample: on the zone automaton `zZ0`, the extended state
`(x, [1,1])` survives one application of `reduce_states` but is merged
away by a second application — the reducer is not idempotent. -/
theorem C9_counterexample :
    zA ∈ (reduce_states zZ0).states ∧
    zA ∉ (reduce_states (reduce_states zZ0)).states := by
  refine ⟨by decide, by decide⟩

/-- C9, amended: the reducer is not idempotent.  On `zZ0` the first
application leaves the three extended states of `x` unchanged (only
remapping the timed edge onto `(x,(1,5))`), while the second merges
`(x,[1,1])` with `(x,(1,5))` into `(x,[1,5))`, changing the state set
and the initial-state set. -/
theorem C9_reduce_not_idempotent :
    (reduce_states zZ0).states = [zA, zX, zX0] ∧
    (reduce_states (reduce_states zZ0)).states =
      [("x", Interval.mk (WithTop.some 1) (WithTop.some 5) true false), zX0] ∧
    (reduce_states zZ0).initial_states = [zA] ∧
    (reduce_states (reduce_states zZ0)).initial_states =
      [("x", Interval.mk (WithTop.some 1) (WithTop.some 5) true false)] := by
  refine ⟨by decide, by decide, by decide, by decide⟩

theorem insertionSort_eq_nil_iff {α : Type} (r : α → α → Prop)
    [DecidableRel r] (l : List α) :
    List.insertionSort r l = [] ↔ l = [] := by
  constructor
  · intro h
    have hlen := (List.perm_insertionSort r l).length_eq
    rw [h] at hlen
    exact List.length_eq_zero.mp hlen.symm
  · rintro rfl
    rfl

theorem endpoint_flatten_eq_nil (l : List Interval) :
    (l.map (fun i => [i.lower, i.upper])).flatten = [] ↔ l = [] := by
  cases l <;> simp

theorem zone_intervals_of_eq_nil (tfa : TimedFiniteAutomaton) (x : String)
    (l : List Trans) :
    zone_intervals_of tfa x l = [] ↔ ∀ t ∈ l, t.1 ≠ x ∧ t.2.2 ≠ x := by
  induction l with
  | nil => simp [zone_intervals_of]
  | cons t rest ih =>
    cases hr : tfa.reset_function t with
    | none =>
      by_cases h1 : t.1 = x <;> by_cases h2 : t.2.2 = x <;>
        simp [zone_intervals_of, hr, h1, h2, ih]
    | some r =>
      by_cases h1 : t.1 = x <;> by_cases h2 : t.2.2 = x <;>
        simp [zone_intervals_of, hr, h1, h2, ih]

theorem distinct_values_eq_nil (tfa : TimedFiniteAutomaton) (x : String) :
    distinct_values tfa x = [] ↔ ∀ t ∈ tfa.transitions, t.1 ≠ x ∧ t.2.2 ≠ x := by
  unfold distinct_values
  rw [insertionSort_eq_nil_iff, List.dedup_eq_nil, insertionSort_eq_nil_iff,
    endpoint_flatten_eq_nil, zone_intervals_of_eq_nil]

/-- C10: the per-state zone enumeration `compute_zones(x)` fails (takes
the last element of an empty list, modelled as `none`) exactly when
`x` occurs in no transition, neither as source nor as destination; it
returns a list exactly when `x` has at least one incident
transition. -/
theorem C10_compute_zones_fails_iff (tfa : TimedFiniteAutomaton)
    (x : String) :
    compute_zones tfa x = none ↔ ∀ t ∈ tfa.transitions, t.1 ≠ x ∧ t.2.2 ≠ x := by
  rw [← distinct_values_eq_nil tfa x]
  unfold compute_zones
  cases hl : (distinct_values tfa x).getLast? with
  | none =>
    constructor
    · intro _
      exact List.getLast?_eq_none_iff.mp hl
    · intro _
      rfl
  | some v =>
    constructor
    · intro h
      cases h
    · intro h
      rw [h] at hl
      cases hl

end ZoneAut
